import Mathlib

/-!
Verification of the bubble-sort program in src/bubble_sort.cpp.

The program sorts a `std::vector<int>` in place with the classic
index-based double loop, prints the array before and after, and
returns 0.  We embed it shallowly: the vector becomes a `List Int`,
the in-place loops become folds over the lists of loop indices, and
the console writes become `String` values.

The comparison-and-swap body (source lines 10-13) and the two loops
are stated generically over an element type with a boolean "greater
than" test, so that the very same loop code can also be run on
key-tagged elements when we analyse stability; the program itself is
the instance at `Int` with the strict order of the source.
-/

namespace BubbleSortCpp

/-- Body of the inner loop at index j (source lines 10-13): if
arr[j] > arr[j+1], exchange the two adjacent elements, else leave the
array unchanged.  Out-of-range reads are modelled with the default d;
the loops below only ever call it with j + 1 < arr.length. -/
def cmpSwapG (gt : α → α → Bool) (d : α) (arr : List α) (j : Nat) : List α :=
  if gt (arr.getD j d) (arr.getD (j + 1) d) then
    (arr.set j (arr.getD (j + 1) d)).set (j + 1) (arr.getD j d)
  else arr

/-- The inner counted for-loop (source line 9): j runs over
0, 1, ..., bound - 1, executing the compare-and-swap body. -/
def innerLoopG (gt : α → α → Bool) (d : α) (arr : List α) (bound : Nat) : List α :=
  (List.range bound).foldl (cmpSwapG gt d) arr

/-- Bound of the inner loop during pass i of an array of length n
(source line 9: j < n - i - 1). -/
def innerBound (n i : Nat) : Nat := n - i - 1

/-- Indices of the outer loop passes (source line 7): i runs over
0, 1, ..., n - 2; for n = 0 the C++ test i < n - 1 compares against
-1 and the loop body never runs, which truncated subtraction on Nat
reproduces. -/
def passIndices (n : Nat) : List Nat := List.range (n - 1)

/-- The whole double loop of bubbleSort (source lines 5-16), generic
in the element comparison.  n = arr.size() is read once at entry. -/
def bubbleSortG (gt : α → α → Bool) (d : α) (arr : List α) : List α :=
  (passIndices arr.length).foldl (fun a i => innerLoopG gt d a (innerBound arr.length i)) arr

/-- State of the array after the first i passes of the outer loop. -/
def stateAfterG (gt : α → α → Bool) (d : α) (arr : List α) (i : Nat) : List α :=
  (List.range i).foldl (fun a p => innerLoopG gt d a (innerBound arr.length p)) arr

/-- Strict "greater than" test on int used by the source comparison
arr[j] > arr[j+1]. -/
def intGt (a b : Int) : Bool := decide (a > b)

/-- Compare-and-swap of the source at its element type int. -/
def cmpSwap : List Int → Nat → List Int := cmpSwapG intGt 0

/-- Inner loop of the source at its element type int. -/
def innerLoop : List Int → Nat → List Int := innerLoopG intGt 0

/-- bubbleSort of the source (lines 5-16): sorts a list of ints. -/
def bubbleSort : List Int → List Int := bubbleSortG intGt 0

/-- State after the first i passes of the program's bubbleSort. -/
def stateAfter : List Int → Nat → List Int := stateAfterG intGt 0

/-- printArray (source lines 19-24): for each element, write its
decimal rendering followed by one space; then write the line
terminator.  The value is the concatenation of everything written. -/
def printArray (arr : List Int) : String :=
  String.join (arr.map (fun num => toString num ++ " ")) ++ "\n"

/-- Hardcoded input array of main (source line 27). -/
def mainArr : List Int := [64, 34, 25, 12, 22, 11, 90]

/-- Everything main writes to standard output (source lines 29-35):
a label, the array before sorting, a label, the array after sorting. -/
def mainOutput : String :=
  "排序前的数组: " ++ printArray mainArr ++
  "排序后的数组: " ++ printArray (bubbleSort mainArr)

/-- Return value of main (source line 37). -/
def mainReturn : Int := 0

/-- Modelled from the spec: output "elements in order, separated by a
single space, followed by a line terminator" (spec section 4.2), for
comparison against the printArray of the source. -/
def printArraySpec (arr : List Int) : String :=
  String.intercalate " " (arr.map toString) ++ "\n"

/-- Structural form of the first k compare-and-swap steps of one
pass: step j of the index-based loop only touches positions j and
j + 1, so peeling the settled head after each comparison gives the
same list.  Proved equal to the fold below (rangeFold_eq_passUpToG). -/
def passUpToG (gt : α → α → Bool) : Nat → List α → List α
  | 0, l => l
  | _ + 1, [] => []
  | _ + 1, [a] => [a]
  | k + 1, a :: b :: t => if gt a b then b :: passUpToG gt k (a :: t) else a :: passUpToG gt k (b :: t)

/-- Step-counting interpreter of the inner loop: each iteration costs
one unit of fuel and the result is none when the fuel runs out.  Used
to state that the loops of the program terminate after finitely many
iterations. -/
def innerLoopFuel : Nat → List Int → Nat → Nat → Option (List Int)
  | 0, _, _, _ => none
  | f + 1, arr, j, bound =>
    if j < bound then innerLoopFuel f (cmpSwap arr j) (j + 1) bound else some arr

/-- Step-counting interpreter of the outer loop of bubbleSort. -/
def outerLoopFuel : Nat → List Int → Nat → Nat → Option (List Int)
  | 0, _, _, _ => none
  | f + 1, arr, i, n =>
    if i < n - 1 then
      match innerLoopFuel f arr 0 (n - i - 1) with
      | none => none
      | some a => outerLoopFuel f a (i + 1) n
    else some arr

/-- Step-counting interpreter of the whole of bubbleSort. -/
def bubbleSortFuel (fuel : Nat) (arr : List Int) : Option (List Int) :=
  outerLoopFuel fuel arr 0 arr.length

/-- The "greater than" test on key-tagged elements: compares the keys
exactly as the source compares ints and ignores the tag. -/
def pairGt (a b : Int × Nat) : Bool := decide (a.1 > b.1)

/-- The source's loops run on elements tagged with their original
position, comparing only the int keys; its key projection is
bubbleSort itself (theorem bubbleSortT_map_fst). -/
def bubbleSortT : List (Int × Nat) → List (Int × Nat) := bubbleSortG pairGt (0, 0)

/-- Tags are order-consistent: any two equal keys carry strictly
increasing tags.  Pairwise with this relation says the relative order
of equal keys is the original one. -/
@[reducible] def stableR (a b : Int × Nat) : Prop := a.1 = b.1 → a.2 < b.2

/-! Basic facts about one compare-and-swap step. -/

theorem length_cmpSwapG (gt : α → α → Bool) (d : α) (arr : List α) (j : Nat) :
    (cmpSwapG gt d arr j).length = arr.length := by
  unfold cmpSwapG; split <;> simp

theorem cmpSwapG_cons (gt : α → α → Bool) (d : α) (x : α) (arr : List α) (j : Nat) :
    cmpSwapG gt d (x :: arr) (j + 1) = x :: cmpSwapG gt d arr j := by
  unfold cmpSwapG
  simp only [List.getD_cons_succ, List.set_cons_succ]
  by_cases hc : gt (arr.getD j d) (arr.getD (j + 1) d) = true
  · rw [if_pos hc, if_pos hc]
  · rw [if_neg hc, if_neg hc]

theorem cmpSwapG_zero (gt : α → α → Bool) (d : α) (a b : α) (t : List α) :
    cmpSwapG gt d (a :: b :: t) 0 = if gt a b then b :: a :: t else a :: b :: t := by
  cases hgt : gt a b <;> simp [cmpSwapG, hgt]

theorem cmpSwapG_split (gt : α → α → Bool) (d : α) :
    ∀ (j : Nat) (arr : List α) (a b : α) (t : List α), arr.drop j = a :: b :: t →
      cmpSwapG gt d arr j = arr.take j ++ if gt a b then b :: a :: t else a :: b :: t := by
  intro j
  induction j with
  | zero =>
    intro arr a b t h
    rw [List.drop_zero] at h
    subst h
    simpa using cmpSwapG_zero gt d a b t
  | succ j ih =>
    intro arr a b t h
    cases arr with
    | nil => simp at h
    | cons x arr =>
      have h' : arr.drop j = a :: b :: t := h
      rw [cmpSwapG_cons, ih arr a b t h', List.take_succ_cons, List.cons_append]

/-! The index-based inner loop, viewed structurally: a fold of
compare-and-swap steps over consecutive indices equals the structural
pass on the part of the list it visits. -/

theorem rangeFold_eq_passUpToG (gt : α → α → Bool) (d : α) :
    ∀ (k : Nat) (pre rest : List α), k < rest.length →
      (List.range' pre.length k).foldl (cmpSwapG gt d) (pre ++ rest) =
        pre ++ passUpToG gt k rest := by
  intro k
  induction k with
  | zero => intro pre rest _; simp [passUpToG]
  | succ k ih =>
    intro pre rest h
    match rest with
    | [] => simp at h
    | [a] => simp only [List.length_cons, List.length_nil] at h; omega
    | a :: b :: t =>
      rw [List.range'_succ, List.foldl_cons,
        cmpSwapG_split gt d pre.length (pre ++ a :: b :: t) a b t
          (List.drop_left pre (a :: b :: t))]
      rw [List.take_left pre (a :: b :: t)]
      by_cases hgt : gt a b = true
      · rw [if_pos hgt]
        have hk : k < (a :: t).length := by
          simp only [List.length_cons] at h ⊢; omega
        have h1 : pre ++ b :: a :: t = (pre ++ [b]) ++ a :: t := by simp
        have h2 : pre.length + 1 = (pre ++ [b]).length := by simp
        rw [h1, h2, ih (pre ++ [b]) (a :: t) hk]
        simp [passUpToG, hgt]
      · rw [if_neg hgt]
        have hk : k < (b :: t).length := by
          simp only [List.length_cons] at h ⊢; omega
        have h1 : pre ++ a :: b :: t = (pre ++ [a]) ++ b :: t := by simp
        have h2 : pre.length + 1 = (pre ++ [a]).length := by simp
        rw [h1, h2, ih (pre ++ [a]) (b :: t) hk]
        simp [passUpToG, hgt]

theorem innerLoopG_eq_passUpToG (gt : α → α → Bool) (d : α) (arr : List α) (bound : Nat)
    (h : bound < arr.length) : innerLoopG gt d arr bound = passUpToG gt bound arr := by
  have := rangeFold_eq_passUpToG gt d bound ([] : List α) arr h
  simpa [innerLoopG, List.range_eq_range'] using this

/-! Facts about the structural pass. -/

theorem passUpToG_perm (gt : α → α → Bool) :
    ∀ (k : Nat) (l : List α), List.Perm (passUpToG gt k l) l := by
  intro k
  induction k with
  | zero => intro l; simp [passUpToG]
  | succ k ih =>
    intro l
    match l with
    | [] => simp [passUpToG]
    | [a] => simp [passUpToG]
    | a :: b :: t =>
      rw [passUpToG]
      split
      · exact ((ih (a :: t)).cons b).trans (List.Perm.swap a b t)
      · exact (ih (b :: t)).cons a

theorem passUpToG_length (gt : α → α → Bool) (k : Nat) (l : List α) :
    (passUpToG gt k l).length = l.length :=
  (passUpToG_perm gt k l).length_eq

theorem passUpToG_append (gt : α → α → Bool) :
    ∀ (k : Nat) (l₁ l₂ : List α), l₁.length = k + 1 →
      passUpToG gt k (l₁ ++ l₂) = passUpToG gt k l₁ ++ l₂ := by
  intro k
  induction k with
  | zero => intro l₁ l₂ _; simp [passUpToG]
  | succ k ih =>
    intro l₁ l₂ h
    match l₁ with
    | [] => simp at h
    | [a] => simp only [List.length_cons, List.length_nil] at h; omega
    | a :: b :: t =>
      have ht : t.length = k := by
        simp only [List.length_cons] at h; omega
      simp only [List.cons_append, passUpToG]
      split
      · show b :: passUpToG gt k ((a :: t) ++ l₂) = (b :: passUpToG gt k (a :: t)) ++ l₂
        rw [ih (a :: t) l₂ (by simp [ht])]
        rfl
      · show a :: passUpToG gt k ((b :: t) ++ l₂) = (a :: passUpToG gt k (b :: t)) ++ l₂
        rw [ih (b :: t) l₂ (by simp [ht])]
        rfl

theorem passUpTo_max :
    ∀ (k : Nat) (l : List Int), l.length = k + 1 →
      ∃ l' m, passUpToG intGt k l = l' ++ [m] ∧ ∀ x ∈ l, x ≤ m := by
  intro k
  induction k with
  | zero =>
    intro l h
    match l with
    | [] => simp at h
    | [a] => exact ⟨[], a, rfl, by simp⟩
    | a :: b :: t => simp only [List.length_cons] at h; omega
  | succ k ih =>
    intro l h
    match l with
    | [] => simp at h
    | [a] => simp only [List.length_cons, List.length_nil] at h; omega
    | a :: b :: t =>
      by_cases hgt : intGt a b = true
      · have hab : b < a := by simpa [intGt] using hgt
        obtain ⟨l', m, heq, hle⟩ := ih (a :: t) (by simpa using h)
        have ham : a ≤ m := hle a (by simp)
        refine ⟨b :: l', m, by simp [passUpToG, hgt, heq], ?_⟩
        intro x hx
        simp only [List.mem_cons] at hx
        rcases hx with rfl | rfl | hx
        · exact ham
        · exact le_trans (le_of_lt hab) ham
        · exact hle x (by simp [hx])
      · have hab : a ≤ b := by simpa [intGt] using hgt
        obtain ⟨l', m, heq, hle⟩ := ih (b :: t) (by simpa using h)
        have hbm : b ≤ m := hle b (by simp)
        refine ⟨a :: l', m, by simp [passUpToG, hgt, heq], ?_⟩
        intro x hx
        simp only [List.mem_cons] at hx
        rcases hx with rfl | rfl | hx
        · exact le_trans hab hbm
        · exact hbm
        · exact hle x (by simp [hx])

/-! Lengths and the pass-by-pass view of the outer loop. -/

theorem length_foldl_cmpSwapG (gt : α → α → Bool) (d : α) :
    ∀ (l : List Nat) (arr : List α), (l.foldl (cmpSwapG gt d) arr).length = arr.length := by
  intro l
  induction l with
  | nil => intro arr; rfl
  | cons j l ih => intro arr; rw [List.foldl_cons, ih, length_cmpSwapG]

theorem length_innerLoopG (gt : α → α → Bool) (d : α) (arr : List α) (bound : Nat) :
    (innerLoopG gt d arr bound).length = arr.length :=
  length_foldl_cmpSwapG gt d (List.range bound) arr

theorem stateAfterG_zero (gt : α → α → Bool) (d : α) (arr : List α) :
    stateAfterG gt d arr 0 = arr := rfl

theorem stateAfterG_succ (gt : α → α → Bool) (d : α) (arr : List α) (i : Nat) :
    stateAfterG gt d arr (i + 1) =
      innerLoopG gt d (stateAfterG gt d arr i) (innerBound arr.length i) := by
  unfold stateAfterG
  rw [List.range_succ, List.foldl_append, List.foldl_cons, List.foldl_nil]

theorem bubbleSortG_eq_stateAfterG (gt : α → α → Bool) (d : α) (arr : List α) :
    bubbleSortG gt d arr = stateAfterG gt d arr (arr.length - 1) := rfl

theorem stateAfter_succ (arr : List Int) (i : Nat) :
    stateAfter arr (i + 1) = innerLoop (stateAfter arr i) (innerBound arr.length i) :=
  stateAfterG_succ intGt 0 arr i

theorem bubbleSort_eq_stateAfter (arr : List Int) :
    bubbleSort arr = stateAfter arr (arr.length - 1) := rfl

/-! The outer-loop invariant: after i passes the array is a
permutation of the input, its last i positions are sorted, and
everything before them is bounded by everything in them. -/

theorem stateAfter_invariant (arr : List Int) :
    ∀ i, i ≤ arr.length - 1 →
      List.Perm (stateAfter arr i) arr ∧
      List.Sorted (· ≤ ·) ((stateAfter arr i).drop (arr.length - i)) ∧
      ∀ x ∈ (stateAfter arr i).take (arr.length - i),
        ∀ y ∈ (stateAfter arr i).drop (arr.length - i), x ≤ y := by
  intro i
  induction i with
  | zero =>
    intro _
    have h0 : stateAfter arr 0 = arr := rfl
    rw [h0, Nat.sub_zero]
    refine ⟨List.Perm.refl arr, ?_, ?_⟩
    · rw [List.drop_length]
      exact List.sorted_nil
    · intro x _ y hy
      rw [List.drop_length] at hy
      simp at hy
  | succ i ih =>
    intro hi1
    have hn2 : i + 2 ≤ arr.length := by omega
    obtain ⟨hperm, hsorted, hcross⟩ := ih (by omega)
    have ha_len : (stateAfter arr i).length = arr.length := hperm.length_eq
    have hb_lt : innerBound arr.length i < (stateAfter arr i).length := by
      rw [ha_len]; unfold innerBound; omega
    have hb1 : innerBound arr.length i + 1 = arr.length - i := by
      unfold innerBound; omega
    have htlen : ((stateAfter arr i).take (innerBound arr.length i + 1)).length =
        innerBound arr.length i + 1 := by
      rw [List.length_take]; omega
    have hstep : stateAfter arr (i + 1) =
        passUpToG intGt (innerBound arr.length i)
          ((stateAfter arr i).take (innerBound arr.length i + 1)) ++
          (stateAfter arr i).drop (innerBound arr.length i + 1) := by
      rw [stateAfter_succ]
      show innerLoopG intGt 0 (stateAfter arr i) (innerBound arr.length i) = _
      rw [innerLoopG_eq_passUpToG intGt 0 _ _ hb_lt]
      conv_lhs => rw [← List.take_append_drop (innerBound arr.length i + 1) (stateAfter arr i)]
      rw [passUpToG_append intGt (innerBound arr.length i) _ _ htlen]
    obtain ⟨l', m, heq, hmax⟩ :=
      passUpTo_max (innerBound arr.length i)
        ((stateAfter arr i).take (innerBound arr.length i + 1)) htlen
    have hl'len : l'.length = innerBound arr.length i := by
      have hlen2 := passUpToG_length intGt (innerBound arr.length i)
        ((stateAfter arr i).take (innerBound arr.length i + 1))
      rw [heq, htlen, List.length_append, List.length_cons, List.length_nil] at hlen2
      omega
    have hmemprefix : ∀ x ∈ l' ++ [m],
        x ∈ (stateAfter arr i).take (innerBound arr.length i + 1) := by
      intro x hx
      exact (passUpToG_perm intGt (innerBound arr.length i) _).mem_iff.1 (heq ▸ hx)
    have hdropeq : (stateAfter arr (i + 1)).drop (arr.length - (i + 1)) =
        m :: (stateAfter arr i).drop (innerBound arr.length i + 1) := by
      rw [hstep, heq, List.append_assoc]
      have hni : arr.length - (i + 1) = innerBound arr.length i := by
        unfold innerBound; omega
      rw [hni, List.drop_left' hl'len]
      rfl
    have htakeeq : (stateAfter arr (i + 1)).take (arr.length - (i + 1)) = l' := by
      rw [hstep, heq, List.append_assoc]
      have hni : arr.length - (i + 1) = innerBound arr.length i := by
        unfold innerBound; omega
      rw [hni, List.take_left' hl'len]
    have hsorted' : List.Sorted (· ≤ ·)
        ((stateAfter arr i).drop (innerBound arr.length i + 1)) := by
      rw [hb1]; exact hsorted
    have hmle : ∀ y ∈ (stateAfter arr i).drop (innerBound arr.length i + 1), m ≤ y := by
      intro y hy
      refine hcross m ?_ y (by rw [← hb1]; exact hy)
      rw [← hb1]
      exact hmemprefix m (by simp)
    refine ⟨?_, ?_, ?_⟩
    · have hp1 : List.Perm (l' ++ [m] ++
          (stateAfter arr i).drop (innerBound arr.length i + 1)) (stateAfter arr i) := by
        have hp0 := List.Perm.append
          (heq ▸ passUpToG_perm intGt (innerBound arr.length i)
            ((stateAfter arr i).take (innerBound arr.length i + 1)))
          (List.Perm.refl ((stateAfter arr i).drop (innerBound arr.length i + 1)))
        rwa [List.take_append_drop] at hp0
      rw [hstep, heq]
      exact hp1.trans hperm
    · rw [hdropeq]
      rw [List.sorted_cons]
      exact ⟨hmle, hsorted'⟩
    · intro x hx y hy
      rw [htakeeq] at hx
      rw [hdropeq] at hy
      have hxtake : x ∈ (stateAfter arr i).take (innerBound arr.length i + 1) :=
        hmemprefix x (by simp [hx])
      rcases List.mem_cons.1 hy with rfl | hy
      · exact hmax x hxtake
      · exact hcross x (by rw [← hb1]; exact hxtake) y (by rw [← hb1]; exact hy)

/-- Sortedness of the program's output, in the standard pairwise form. -/
theorem bubbleSort_sorted (arr : List Int) : List.Sorted (· ≤ ·) (bubbleSort arr) := by
  rcases Nat.eq_zero_or_pos arr.length with h0 | h1
  · have : arr = [] := List.length_eq_zero.1 h0
    subst this
    exact List.sorted_nil
  · obtain ⟨_, hsorted, hcross⟩ :=
      stateAfter_invariant arr (arr.length - 1) (le_refl _)
    rw [bubbleSort_eq_stateAfter]
    have h11 : arr.length - (arr.length - 1) = 1 := by omega
    rw [h11] at hsorted hcross
    have hlen : (stateAfter arr (arr.length - 1)).length = arr.length :=
      (stateAfter_invariant arr (arr.length - 1) (le_refl _)).1.length_eq
    match hm : stateAfter arr (arr.length - 1) with
    | [] => exact List.sorted_nil
    | h :: t =>
      rw [hm] at hsorted hcross
      rw [List.sorted_cons]
      refine ⟨?_, by simpa using hsorted⟩
      intro y hy
      exact hcross h (by simp) y (by simpa using hy)

/-- The program's output is a permutation of its input. -/
theorem bubbleSort_perm (arr : List Int) : List.Perm (bubbleSort arr) arr := by
  rw [bubbleSort_eq_stateAfter]
  exact (stateAfter_invariant arr (arr.length - 1) (le_refl _)).1

/-- After pass k the last k + 1 positions already hold exactly what
the finished sort holds there: the suffix a pass settles never moves
again. -/
theorem stateAfter_suffix_final (arr : List Int) (k : Nat) (hk : k < arr.length - 1) :
    (stateAfter arr (k + 1)).drop (arr.length - (k + 1)) =
      (bubbleSort arr).drop (arr.length - (k + 1)) := by
  obtain ⟨hperm, hsorted, hcross⟩ := stateAfter_invariant arr (k + 1) (by omega)
  have hsg : List.Sorted (· ≤ ·)
      (List.insertionSort (· ≤ ·) ((stateAfter arr (k + 1)).take (arr.length - (k + 1))) ++
        (stateAfter arr (k + 1)).drop (arr.length - (k + 1))) := by
    rw [List.Sorted, List.pairwise_append]
    refine ⟨List.sorted_insertionSort (· ≤ ·) _, hsorted, ?_⟩
    intro x hx y hy
    exact hcross x ((List.perm_insertionSort (· ≤ ·) _).subset hx) y hy
  have hpg : List.Perm
      (List.insertionSort (· ≤ ·) ((stateAfter arr (k + 1)).take (arr.length - (k + 1))) ++
        (stateAfter arr (k + 1)).drop (arr.length - (k + 1)))
      (bubbleSort arr) := by
    have h1 := List.Perm.append
      (List.perm_insertionSort (· ≤ ·) ((stateAfter arr (k + 1)).take (arr.length - (k + 1))))
      (List.Perm.refl ((stateAfter arr (k + 1)).drop (arr.length - (k + 1))))
    rw [List.take_append_drop] at h1
    exact (h1.trans hperm).trans (bubbleSort_perm arr).symm
  have hge := List.eq_of_perm_of_sorted hpg hsg (bubbleSort_sorted arr)
  have hplen : (List.insertionSort (· ≤ ·)
      ((stateAfter arr (k + 1)).take (arr.length - (k + 1)))).length =
        arr.length - (k + 1) := by
    rw [(List.perm_insertionSort (· ≤ ·) _).length_eq, List.length_take, hperm.length_eq]
    omega
  rw [← hge, List.drop_left' hplen]

/-! Pairwise relations that the swap test can never violate are
preserved by the whole sort: the machinery behind stability. -/

theorem passUpToG_pairwise {R : α → α → Prop} (gt : α → α → Bool)
    (hgt : ∀ a b, gt a b = true → R b a) :
    ∀ (k : Nat) (l : List α), List.Pairwise R l → List.Pairwise R (passUpToG gt k l) := by
  intro k
  induction k with
  | zero => intro l h; simpa [passUpToG] using h
  | succ k ih =>
    intro l h
    match l with
    | [] => simp [passUpToG]
    | [a] => simp [passUpToG]
    | a :: b :: t =>
      rcases List.pairwise_cons.1 h with ⟨haR, h'⟩
      rcases List.pairwise_cons.1 h' with ⟨hbR, ht⟩
      rw [passUpToG]
      by_cases hab : gt a b = true
      · rw [if_pos hab]
        have hat : List.Pairwise R (a :: t) :=
          List.pairwise_cons.2 ⟨fun y hy => haR y (by simp [hy]), ht⟩
        refine List.pairwise_cons.2 ⟨?_, ih (a :: t) hat⟩
        intro y hy
        have hy' : y ∈ a :: t := (passUpToG_perm gt k (a :: t)).subset hy
        rcases List.mem_cons.1 hy' with heq | hy''
        · rw [heq]; exact hgt a b hab
        · exact hbR y hy''
      · rw [if_neg hab]
        refine List.pairwise_cons.2 ⟨?_, ih (b :: t) h'⟩
        intro y hy
        exact haR y ((passUpToG_perm gt k (b :: t)).subset hy)

theorem stateAfterG_pairwise {R : α → α → Prop} (gt : α → α → Bool) (d : α)
    (hgt : ∀ a b, gt a b = true → R b a) (arr : List α) :
    ∀ i, i ≤ arr.length - 1 → List.Pairwise R arr →
      List.Pairwise R (stateAfterG gt d arr i) ∧
        (stateAfterG gt d arr i).length = arr.length := by
  intro i
  induction i with
  | zero => intro _ h; exact ⟨h, rfl⟩
  | succ i ih =>
    intro hi h
    obtain ⟨hp, hlen⟩ := ih (by omega) h
    have hb_lt : innerBound arr.length i < (stateAfterG gt d arr i).length := by
      rw [hlen]; unfold innerBound; omega
    rw [stateAfterG_succ, innerLoopG_eq_passUpToG gt d _ _ hb_lt]
    have htlen : ((stateAfterG gt d arr i).take (innerBound arr.length i + 1)).length =
        innerBound arr.length i + 1 := by
      rw [List.length_take]; omega
    constructor
    · have hp' := hp
      rw [← List.take_append_drop (innerBound arr.length i + 1) (stateAfterG gt d arr i)]
        at hp'
      rcases List.pairwise_append.1 hp' with ⟨hpt, hpd, hpcross⟩
      have hsplit : passUpToG gt (innerBound arr.length i) (stateAfterG gt d arr i) =
          passUpToG gt (innerBound arr.length i)
            ((stateAfterG gt d arr i).take (innerBound arr.length i + 1)) ++
            (stateAfterG gt d arr i).drop (innerBound arr.length i + 1) := by
        conv_lhs => rw [← List.take_append_drop (innerBound arr.length i + 1)
          (stateAfterG gt d arr i)]
        rw [passUpToG_append gt _ _ _ htlen]
      rw [hsplit, List.pairwise_append]
      refine ⟨passUpToG_pairwise gt hgt _ _ hpt, hpd, ?_⟩
      intro x hx y hy
      exact hpcross x ((passUpToG_perm gt _ _).subset hx) y hy
    · rw [passUpToG_length, hlen]

theorem bubbleSortT_stable (l : List (Int × Nat)) (h : List.Pairwise stableR l) :
    List.Pairwise stableR (bubbleSortT l) := by
  have hgt : ∀ a b : Int × Nat, pairGt a b = true → stableR b a := by
    intro a b hab heq
    have hlt : b.1 < a.1 := by simpa [pairGt] using hab
    exact absurd heq (ne_of_lt hlt)
  rw [show bubbleSortT = bubbleSortG pairGt (0, 0) from rfl, bubbleSortG_eq_stateAfterG]
  exact (stateAfterG_pairwise pairGt (0, 0) hgt l (l.length - 1) (le_refl _) h).1

/-! The loops on key-tagged elements project to the loops on the
keys: running the source comparisons through a key function commutes
with forgetting the tags. -/

theorem getD_map (f : α → β) :
    ∀ (l : List α) (j : Nat) (d : α), (l.map f).getD j (f d) = f (l.getD j d) := by
  intro l
  induction l with
  | nil => intro j d; rfl
  | cons a l ih =>
    intro j d
    cases j with
    | zero => rfl
    | succ j => simp

theorem map_cmpSwapG (f : α → β) (gt : α → α → Bool) (gt' : β → β → Bool)
    (hcomp : ∀ x y, gt' (f x) (f y) = gt x y) (d : α) (arr : List α) (j : Nat) :
    (cmpSwapG gt d arr j).map f = cmpSwapG gt' (f d) (arr.map f) j := by
  unfold cmpSwapG
  rw [getD_map f arr j d, getD_map f arr (j + 1) d, hcomp]
  by_cases hc : gt (arr.getD j d) (arr.getD (j + 1) d) = true
  · rw [if_pos hc, if_pos hc, List.map_set, List.map_set]
  · rw [if_neg hc, if_neg hc]

theorem map_foldl_cmpSwapG (f : α → β) (gt : α → α → Bool) (gt' : β → β → Bool)
    (hcomp : ∀ x y, gt' (f x) (f y) = gt x y) (d : α) :
    ∀ (idx : List Nat) (arr : List α),
      (idx.foldl (cmpSwapG gt d) arr).map f =
        idx.foldl (cmpSwapG gt' (f d)) (arr.map f) := by
  intro idx
  induction idx with
  | nil => intro arr; rfl
  | cons j idx ih =>
    intro arr
    rw [List.foldl_cons, List.foldl_cons, ih, map_cmpSwapG f gt gt' hcomp d]

theorem map_innerLoopG (f : α → β) (gt : α → α → Bool) (gt' : β → β → Bool)
    (hcomp : ∀ x y, gt' (f x) (f y) = gt x y) (d : α) (arr : List α) (bound : Nat) :
    (innerLoopG gt d arr bound).map f = innerLoopG gt' (f d) (arr.map f) bound :=
  map_foldl_cmpSwapG f gt gt' hcomp d (List.range bound) arr

theorem map_outerFold (f : α → β) (gt : α → α → Bool) (gt' : β → β → Bool)
    (hcomp : ∀ x y, gt' (f x) (f y) = gt x y) (d : α) (n : Nat) :
    ∀ (idx : List Nat) (a : List α),
      (idx.foldl (fun x i => innerLoopG gt d x (innerBound n i)) a).map f =
        idx.foldl (fun x i => innerLoopG gt' (f d) x (innerBound n i)) (a.map f) := by
  intro idx
  induction idx with
  | nil => intro a; rfl
  | cons j idx ih =>
    intro a
    rw [List.foldl_cons, List.foldl_cons, ih, map_innerLoopG f gt gt' hcomp d]

theorem bubbleSortT_map_fst (l : List (Int × Nat)) :
    (bubbleSortT l).map Prod.fst = bubbleSort (l.map Prod.fst) := by
  show (bubbleSortG pairGt (0, 0) l).map Prod.fst = bubbleSortG intGt 0 (l.map Prod.fst)
  unfold bubbleSortG
  rw [List.length_map]
  exact map_outerFold Prod.fst pairGt intGt (fun x y => rfl) (0, 0) l.length
    (passIndices l.length) l

/-! Termination of the loops, through the step-counting interpreter:
enough fuel always exists, and the value computed is bubbleSort. -/

theorem innerLoopFuel_mono :
    ∀ (f f' : Nat), f ≤ f' → ∀ (arr : List Int) (j bound : Nat) (x : List Int),
      innerLoopFuel f arr j bound = some x → innerLoopFuel f' arr j bound = some x := by
  intro f
  induction f with
  | zero =>
    intro f' _ arr j bound x h
    exact absurd h (by simp [innerLoopFuel])
  | succ f ih =>
    intro f' hf arr j bound x h
    cases f' with
    | zero => omega
    | succ f' =>
      simp only [innerLoopFuel] at h ⊢
      by_cases hj : j < bound
      · rw [if_pos hj] at h ⊢
        exact ih f' (by omega) _ _ _ _ h
      · rw [if_neg hj] at h ⊢
        exact h

theorem outerLoopFuel_mono :
    ∀ (f f' : Nat), f ≤ f' → ∀ (arr : List Int) (i n : Nat) (x : List Int),
      outerLoopFuel f arr i n = some x → outerLoopFuel f' arr i n = some x := by
  intro f
  induction f with
  | zero =>
    intro f' _ arr i n x h
    exact absurd h (by simp [outerLoopFuel])
  | succ f ih =>
    intro f' hf arr i n x h
    cases f' with
    | zero => omega
    | succ f' =>
      simp only [outerLoopFuel] at h ⊢
      by_cases hi : i < n - 1
      · rw [if_pos hi] at h ⊢
        cases hinner : innerLoopFuel f arr 0 (n - i - 1) with
        | none => rw [hinner] at h; exact absurd h (by simp)
        | some a =>
          rw [hinner] at h
          rw [innerLoopFuel_mono f f' (by omega) arr 0 (n - i - 1) a hinner]
          exact ih f' (by omega) a (i + 1) n x h
      · rw [if_neg hi] at h ⊢
        exact h

theorem innerLoopFuel_succ_eq (f : Nat) (arr : List Int) (j bound : Nat) :
    innerLoopFuel (f + 1) arr j bound =
      if j < bound then innerLoopFuel f (cmpSwap arr j) (j + 1) bound else some arr := rfl

theorem innerLoopFuel_complete :
    ∀ (k : Nat) (arr : List Int) (j bound : Nat), bound - j = k →
      innerLoopFuel (k + 1) arr j bound =
        some ((List.range' j k).foldl cmpSwap arr) := by
  intro k
  induction k with
  | zero =>
    intro arr j bound h
    rw [innerLoopFuel_succ_eq, if_neg (by omega)]
    rfl
  | succ k ih =>
    intro arr j bound h
    rw [innerLoopFuel_succ_eq, if_pos (by omega), ih (cmpSwap arr j) (j + 1) bound (by omega),
      List.range'_succ, List.foldl_cons]

theorem innerLoop_eq_rangeFold (arr : List Int) (bound : Nat) :
    innerLoop arr bound = (List.range' 0 bound).foldl cmpSwap arr := by
  show innerLoopG intGt 0 arr bound = _
  unfold innerLoopG
  rw [List.range_eq_range']
  rfl

theorem outerLoopFuel_ex :
    ∀ (k : Nat) (arr : List Int) (i n : Nat), (n - 1) - i = k →
      ∃ f, outerLoopFuel f arr i n =
        some ((List.range' i k).foldl
          (fun a p => innerLoopG intGt 0 a (innerBound n p)) arr) := by
  intro k
  induction k with
  | zero =>
    intro arr i n h
    refine ⟨1, ?_⟩
    simp only [outerLoopFuel]
    rw [if_neg (by omega)]
    rfl
  | succ k ih =>
    intro arr i n h
    have hi : i < n - 1 := by omega
    obtain ⟨f₂, hf₂⟩ := ih (innerLoop arr (n - i - 1)) (i + 1) n (by omega)
    refine ⟨max (n - i - 1 + 1) f₂ + 1, ?_⟩
    simp only [outerLoopFuel]
    rw [if_pos hi]
    have hinner : innerLoopFuel (max (n - i - 1 + 1) f₂) arr 0 (n - i - 1) =
        some (innerLoop arr (n - i - 1)) := by
      refine innerLoopFuel_mono (n - i - 1 + 1) _ (le_max_left _ _) arr 0 (n - i - 1) _ ?_
      rw [innerLoopFuel_complete (n - i - 1) arr 0 (n - i - 1) (by omega),
        innerLoop_eq_rangeFold]
    rw [hinner, List.range'_succ, List.foldl_cons]
    exact outerLoopFuel_mono f₂ _ (le_max_right _ _) _ (i + 1) n _ hf₂

theorem bubbleSortFuel_terminates (arr : List Int) :
    ∃ fuel, bubbleSortFuel fuel arr = some (bubbleSort arr) := by
  obtain ⟨f, hf⟩ := outerLoopFuel_ex (arr.length - 1) arr 0 arr.length (by omega)
  refine ⟨f, ?_⟩
  unfold bubbleSortFuel
  rw [hf]
  show _ = some (bubbleSortG intGt 0 arr)
  unfold bubbleSortG passIndices
  rw [List.range_eq_range']

/-! Elementary facts about string concatenation of the console
writes, leading to the exact shape of the printArray output. -/

theorem strFoldl_append :
    ∀ (l : List String) (acc : String),
      l.foldl (fun r t => r ++ t) acc = acc ++ l.foldl (fun r t => r ++ t) "" := by
  intro l
  induction l with
  | nil => intro acc; rw [List.foldl_nil, List.foldl_nil, String.append_empty]
  | cons s l ih =>
    intro acc
    rw [List.foldl_cons, List.foldl_cons]
    show l.foldl (fun r t => r ++ t) (acc ++ s) =
      acc ++ l.foldl (fun r t => r ++ t) ("" ++ s)
    rw [ih (acc ++ s), ih ("" ++ s), String.empty_append, String.append_assoc]

theorem strJoin_cons (s : String) (l : List String) :
    String.join (s :: l) = s ++ String.join l := by
  show (s :: l).foldl (fun r t => r ++ t) "" = s ++ l.foldl (fun r t => r ++ t) ""
  rw [List.foldl_cons]
  show l.foldl (fun r t => r ++ t) ("" ++ s) = s ++ l.foldl (fun r t => r ++ t) ""
  rw [String.empty_append, strFoldl_append l s]

theorem interGo_spec (s : String) :
    ∀ (as : List String) (acc : String),
      String.intercalate.go acc s as = acc ++ String.join (as.map (fun t => s ++ t)) := by
  intro as
  induction as with
  | nil =>
    intro acc
    show (acc : String) = acc ++ ""
    rw [String.append_empty]
  | cons a as ih =>
    intro acc
    show String.intercalate.go (acc ++ s ++ a) s as = _
    rw [ih (acc ++ s ++ a), List.map_cons, strJoin_cons]
    simp [String.append_assoc]

theorem intercalate_cons (s a : String) (as : List String) :
    String.intercalate s (a :: as) = a ++ String.join (as.map (fun t => s ++ t)) := by
  show String.intercalate.go a s as = _
  rw [interGo_spec s as a]

theorem join_tail_space :
    ∀ (xs : List String),
      " " ++ String.join (xs.map (fun t => t ++ " ")) =
        String.join (xs.map (fun t => " " ++ t)) ++ " " := by
  intro xs
  induction xs with
  | nil =>
    rw [List.map_nil, List.map_nil]
    show " " ++ "" = "" ++ " "
    rw [String.append_empty, String.empty_append]
  | cons x xs ih =>
    rw [List.map_cons, List.map_cons, strJoin_cons, strJoin_cons]
    simp only [String.append_assoc]
    rw [ih]

/-! The claims. -/

set_option maxRecDepth 8000

/-- C1: for every list of integers and every pair of valid indices
i < j, after bubbleSort the element at position i is at most the
element at position j. -/
theorem claim_C1_bubbleSort_sorted_indices (l : List Int) (i j : Nat)
    (hij : i < j) (hj : j < (bubbleSort l).length) :
    (bubbleSort l).getD i 0 ≤ (bubbleSort l).getD j 0 := by
  have hi : i < (bubbleSort l).length := lt_trans hij hj
  have hres := List.pairwise_iff_getElem.1 (bubbleSort_sorted l) i j hi hj hij
  rw [List.getD_eq_getElem?_getD, List.getD_eq_getElem?_getD,
    List.getElem?_eq_getElem hi, List.getElem?_eq_getElem hj]
  simpa using hres

theorem claim_C1_witness :
    0 < 2 ∧ 2 < (bubbleSort [3, 1, 2]).length ∧
      (bubbleSort [3, 1, 2]).getD 0 0 ≤ (bubbleSort [3, 1, 2]).getD 2 0 :=
  ⟨by decide, by decide,
    claim_C1_bubbleSort_sorted_indices [3, 1, 2] 0 2 (by decide) (by decide)⟩

/-- C2: the multiset of values after bubbleSort equals the multiset
of values before it: nothing is added, removed or altered, and
multiplicities of duplicates are kept exactly. -/
theorem claim_C2_bubbleSort_multiset_eq (l : List Int) :
    (↑(bubbleSort l) : Multiset Int) = (↑l : Multiset Int) :=
  Multiset.coe_eq_coe.2 (bubbleSort_perm l)

/-- C3: on the program's hardcoded literal input, bubbleSort returns
exactly the sorted sequence of the spec's concrete scenario. -/
theorem claim_C3_main_input_sorted :
    bubbleSort mainArr = [11, 12, 22, 25, 34, 64, 90] := by decide

/-- C4: the outer loop runs over exactly n - 1 pass indices; after
pass k (0-indexed) the last k + 1 positions hold exactly what the
finished sort holds there, i.e. the k + 1 largest elements are
already in final sorted position; and the inner bound of the next
pass is one smaller. -/
theorem claim_C4_pass_invariant (arr : List Int) (k : Nat) (hk : k < arr.length - 1) :
    (passIndices arr.length).length = arr.length - 1 ∧
    (stateAfter arr (k + 1)).drop (arr.length - (k + 1)) =
      (bubbleSort arr).drop (arr.length - (k + 1)) ∧
    (k + 1 < arr.length - 1 →
      innerBound arr.length (k + 1) + 1 = innerBound arr.length k) := by
  refine ⟨by simp [passIndices], stateAfter_suffix_final arr k hk, ?_⟩
  intro h
  unfold innerBound
  omega

theorem claim_C4_witness :
    (0 : Nat) < ([3, 2, 1] : List Int).length - 1 ∧
      ((passIndices ([3, 2, 1] : List Int).length).length =
          ([3, 2, 1] : List Int).length - 1 ∧
        (stateAfter [3, 2, 1] (0 + 1)).drop (([3, 2, 1] : List Int).length - (0 + 1)) =
          (bubbleSort [3, 2, 1]).drop (([3, 2, 1] : List Int).length - (0 + 1)) ∧
        (0 + 1 < ([3, 2, 1] : List Int).length - 1 →
          innerBound ([3, 2, 1] : List Int).length (0 + 1) + 1 =
            innerBound ([3, 2, 1] : List Int).length 0)) :=
  ⟨by decide, claim_C4_pass_invariant [3, 2, 1] 0 (by decide)⟩

/-- C5 counterexample: on the one-element list the program writes a
space after the element and before the line terminator, so its output
is not the elements separated by single spaces followed by the
terminator, as the spec sentence reads. -/
theorem claim_C5_counterexample :
    printArray [1] = "1 \n" ∧ printArraySpec [1] = "1\n" ∧
      printArray [1] ≠ printArraySpec [1] :=
  ⟨rfl, rfl, by decide⟩

/-- C5 (amended): the output of printArray is the elements in
sequence order each followed by a single space — equivalently,
separated by single spaces with one trailing space — followed by the
line terminator. -/
theorem claim_C5_printArray_format (arr : List Int) :
    printArray arr =
      (if arr.isEmpty then ""
        else String.intercalate " " (arr.map toString) ++ " ") ++ "\n" := by
  match arr with
  | [] => rfl
  | a :: l =>
    show String.join ((a :: l).map (fun num => toString num ++ " ")) ++ "\n" = _
    rw [List.map_cons, strJoin_cons, if_neg (by simp), List.map_cons,
      intercalate_cons]
    have hcomp : l.map (fun num => toString num ++ " ") =
        (l.map toString).map (fun t => t ++ " ") := by
      rw [List.map_map]; rfl
    rw [hcomp]
    have key : (toString a ++ " ") ++
        String.join ((l.map toString).map (fun t => t ++ " ")) =
        (toString a ++ String.join ((l.map toString).map (fun t => " " ++ t))) ++ " " := by
      rw [String.append_assoc, join_tail_space (l.map toString), String.append_assoc]
    rw [key]

/-- C6: bubbleSort applied to a list already in non-decreasing order
returns that very list. -/
theorem claim_C6_idempotent (l : List Int) (h : List.Sorted (· ≤ ·) l) :
    bubbleSort l = l :=
  List.eq_of_perm_of_sorted (bubbleSort_perm l) (bubbleSort_sorted l) h

theorem claim_C6_witness :
    List.Sorted (· ≤ ·) ([1, 2, 3] : List Int) ∧ bubbleSort [1, 2, 3] = [1, 2, 3] :=
  ⟨by decide, claim_C6_idempotent [1, 2, 3] (by decide)⟩

/-- C7: sorting the empty list gives the empty list and sorting any
one-element list gives the same list; both runs perform no loop
iteration at all. -/
theorem claim_C7_empty_singleton :
    bubbleSort [] = [] ∧ ∀ x : Int, bubbleSort [x] = [x] :=
  ⟨rfl, fun _ => rfl⟩

/-- C8: the duplicate-handling scenario of the spec: both copies of 5
survive with their multiplicity. -/
theorem claim_C8_duplicates : bubbleSort [5, 3, 5, 1] = [1, 3, 5, 5] := by decide

/-- C9: for every input the loops of bubbleSort finish after finitely
many iterations (some finite fuel makes the step-counting interpreter
return exactly the value of bubbleSort), and main returns the success
status 0. -/
theorem claim_C9_terminates_success :
    (∀ arr : List Int, ∃ fuel, bubbleSortFuel fuel arr = some (bubbleSort arr)) ∧
      mainReturn = 0 :=
  ⟨bubbleSortFuel_terminates, rfl⟩

/-- C10: the body of the inner loop exchanges a pair only when the
left element is strictly greater, so equal adjacent elements are
never swapped; consequently the sort run on key-tagged elements keeps
the original relative order of equal keys (stability), and forgetting
the tags recovers exactly the program's bubbleSort. -/
theorem claim_C10_swap_only_strict_stable :
    (∀ (arr : List Int) (j : Nat),
      arr.getD j 0 ≤ arr.getD (j + 1) 0 → cmpSwap arr j = arr) ∧
    (∀ l : List (Int × Nat),
      List.Pairwise stableR l → List.Pairwise stableR (bubbleSortT l)) ∧
    (∀ l : List (Int × Nat), (bubbleSortT l).map Prod.fst = bubbleSort (l.map Prod.fst)) := by
  refine ⟨?_, bubbleSortT_stable, bubbleSortT_map_fst⟩
  intro arr j h
  show cmpSwapG intGt 0 arr j = arr
  unfold cmpSwapG
  rw [if_neg ?_]
  show ¬(intGt (arr.getD j 0) (arr.getD (j + 1) 0) = true)
  simp only [intGt, decide_eq_true_eq]
  omega

theorem claim_C10_witness :
    List.Pairwise stableR [((5 : Int), (0 : Nat)), (3, 1), (5, 2), (1, 3)] ∧
      List.Pairwise stableR (bubbleSortT [((5 : Int), (0 : Nat)), (3, 1), (5, 2), (1, 3)]) :=
  ⟨by decide,
    claim_C10_swap_only_strict_stable.2.1 [((5 : Int), (0 : Nat)), (3, 1), (5, 2), (1, 3)]
      (by decide)⟩

end BubbleSortCpp
